import Mathlib

/-!
Shallow embedding of the `SpeechDatasetWalker` subsystem of the lidbox
repository (`speechbox/dataset/walkers.py`), together with proofs about its
traversal, duplicate detection, speaker filtering and labelling behaviour.

The walker interacts with the file system through `os.walk`, `os.path.exists`
and with `speechbox.system` functions (`read_wavfile`, `md5sum`).  These
effects are modelled by an explicit environment `Env` that fixes, for each
path, what the file system and those helpers would return during one walk.
-/

namespace Speechbox

/-- Modelled from the spec: the helpers imported from `speechbox.system`
(`read_wavfile`, `md5sum`), which are not part of the sources under
verification, together with the Python standard library file-system
primitives used by `walk` (`os.path.exists`, `os.walk`).  Each is an
abstract function of the path, fixed for the duration of one walk:
`md5sum` is the MD5 hash of the file contents at a path (represented
abstractly as a `Nat`), `readWav` is the `(wav, srate)` result of
`read_wavfile` with `none` standing for a `None` wav (unreadable audio),
and `osWalk followlinks root` is the finite sequence of
`(parent, files)` pairs that `os.walk(root, followlinks=...)` produces. -/
structure Env where
  pathExists : String → Bool
  readWav : String → Option Nat
  md5sum : String → Nat
  osWalk : Bool → String → List (String × List String)

/-- Python dict read `d.get(k)` on an association list: the value of the
first (and, for genuine dicts, only) entry with the given key. -/
def dictGet {α : Type _} : List (String × α) → String → Option α
  | [], _ => none
  | (k2, v) :: rest, k => if k2 = k then some v else dictGet rest k

/-- Python `str.startswith`, computed on the character lists. -/
def strStartsWith (s pre : String) : Bool :=
  pre.data.isPrefixOf s.data

/-- Python `str.endswith`, computed on the character lists. -/
def strEndsWith (s post : String) : Bool :=
  post.data.isSuffixOf s.data

/-- `os.path.join` for two POSIX path components. -/
def pathJoin (a b : String) : String :=
  if strStartsWith b "/" then b
  else if a = "" || strEndsWith a "/" then a ++ b
  else a ++ "/" ++ b

/-- One value of `self.label_definitions`: the per-label metadata dict.  The
Python code reads the keys `"sample_dirs"` and `"sample_files"` with
`.get(key, [])`, so absent keys behave as empty lists, which the default
field values reproduce.  `sample_file_checksums` is carried but never read
by `walk`. -/
structure LabelDef where
  name : String := ""
  sample_dirs : List String := []
  sample_files : List String := []
  sample_file_checksums : List String := []
deriving Repr, DecidableEq

/-- State of a `SpeechDatasetWalker` instance as far as `walk` observes it.
Python dicts are modelled as association lists (first match wins, mirroring
unique-key dicts); the subclass method `parse_speaker_id` is a function
field. -/
structure Walker where
  dataset_root : Option String
  label_definitions : List (String × LabelDef)
  ignored_speaker_ids_by_label : List (String × List String) := []
  parse_speaker_id : String → String

/-- `self.join_root(p)` = `os.path.join(self.dataset_root, p)`.  (Python
would raise on a `None` root; every call site in `walk` reaches this only
for walkers that traverse directories, which have a root.) -/
def Walker.join_root (w : Walker) (p : String) : String :=
  pathJoin (w.dataset_root.getD "") p

/-- `self.label_definitions[label]` as read by `walk` via `.get(...)`. -/
def Walker.getLabelDef (w : Walker) (label : String) : LabelDef :=
  (dictGet w.label_definitions label).getD {}

/-- `set_speaker_filter`: store `{label: set(ids) for label, ids in d.items()}`
as `ignored_speaker_ids_by_label` (sets are modelled by list membership). -/
def set_speaker_filter (w : Walker) (d : List (String × List String)) : Walker :=
  { w with ignored_speaker_ids_by_label := d }

/-- `speaker_id_is_ignored(wavpath, label)`: `False` when the label is not a
key of the filter dict, otherwise true iff the parsed speaker id is NOT a
member of the stored id set for that label. -/
def speaker_id_is_ignored (w : Walker) (wavpath label : String) : Bool :=
  match dictGet w.ignored_speaker_ids_by_label label with
  | none => false
  | some ids => !(ids.contains (w.parse_speaker_id wavpath))

/-- The local `file_extensions=("wav",)` of `walk`. -/
def file_extensions : List String := ["wav"]

/-- The mutable closure state of one `walk` call: the `duplicates`
defaultdict (hash to the list of files appended for that hash) and the
`invalid_files` list. -/
structure WalkState where
  duplicates : List (Nat × List String) := []
  invalid_files : List String := []
deriving Repr, DecidableEq

/-- `duplicates[h]` read: `[]` when the hash has no entry yet. -/
def lookupDup : List (Nat × List String) → Nat → List String
  | [], _ => []
  | (h2, ps) :: rest, h => if h2 = h then ps else lookupDup rest h

/-- `duplicates[h].append(p)` on the defaultdict: append to the entry,
materialising it if absent. -/
def addDup : List (Nat × List String) → Nat → String → List (Nat × List String)
  | [], h, p => [(h, [p])]
  | (h2, ps) :: rest, h, p =>
    if h2 = h then (h2, ps ++ [p]) :: rest else (h2, ps) :: addDup rest h p

/-- The tail of `audiofile_ok` after the validity checks: the speaker-id
filter followed by the file-extension filter. -/
def afterChecks (w : Walker) (st : WalkState) (wavpath label : String) :
    Bool × WalkState :=
  if speaker_id_is_ignored w wavpath label then (false, st)
  else if !(file_extensions.any fun ext => strEndsWith wavpath ext) then (false, st)
  else (true, st)

/-- The inner function `audiofile_ok(wavpath, label)` of `walk`, with the
closure state made explicit.  In source order: the existence check, the
`check_read` block (recording unreadable files in `invalid_files`), the
`check_duplicates` block (hashing and skipping repeated hashes), then the
speaker and extension filters.  Verbosity-only effects (warnings about
sample rate and audio type) are omitted as they influence nothing but
printing. -/
def audiofile_ok (env : Env) (w : Walker) (check_duplicates check_read : Bool)
    (st : WalkState) (wavpath label : String) : Bool × WalkState :=
  if env.pathExists wavpath = false then (false, st)
  else if check_read && (env.readWav wavpath).isNone then
    (false, { st with invalid_files := st.invalid_files ++ [wavpath] })
  else if check_duplicates then
    let content_hash := env.md5sum wavpath
    let st2 := { st with duplicates := addDup st.duplicates content_hash wavpath }
    if (lookupDup st2.duplicates content_hash).length > 1 then (false, st2)
    else afterChecks w st2 wavpath label
  else afterChecks w st wavpath label

/-- One yielded triple `(label, wavpath, md5sum(wavpath))`. -/
abbrev Yield := String × String × Nat

/-- The message of `DatasetRecursionError`. -/
def recursionErrorMsg (this_dir : String) : String :=
  this_dir ++ " already traversed at least once. Does the dataset directory contain symbolic links pointing to parent directories?"

/-- The inner `for f in files` loop over one `os.walk` entry: examine each
file under `parent` and yield the triple when `audiofile_ok` passes. -/
def processFiles (env : Env) (w : Walker) (cd cr : Bool) (label parent : String) :
    List String → WalkState → List Yield × WalkState
  | [], st => ([], st)
  | f :: fs, st =>
    let wavpath := pathJoin (w.join_root parent) f
    let r := audiofile_ok env w cd cr st wavpath label
    let rest := processFiles env w cd cr label parent fs r.2
    (if r.1 then (label, wavpath, env.md5sum wavpath) :: rest.1 else rest.1, rest.2)

/-- The `for parent, _, files in os.walk(...)` loop for one sample
directory: raise `DatasetRecursionError` when `join_root(parent)` was
already seen in this traversal, otherwise record it and examine the
files. -/
def processWalkEntries (env : Env) (w : Walker) (cd cr : Bool) (label : String) :
    List (String × List String) → List String → WalkState →
    Except String (List Yield × WalkState)
  | [], _, st => .ok ([], st)
  | (parent, files) :: rest, seen, st =>
    let this_dir := w.join_root parent
    if seen.contains this_dir then .error (recursionErrorMsg this_dir)
    else
      let r := processFiles env w cd cr label parent files st
      match processWalkEntries env w cd cr label rest (this_dir :: seen) r.2 with
      | .error e => .error e
      | .ok (ys, st2) => .ok (r.1 ++ ys, st2)

/-- Traversal of one sample directory: `seen_directories = set()` is fresh
for each directory. -/
def processSampleDir (env : Env) (w : Walker) (cd cr fl : Bool)
    (label dir : String) (st : WalkState) :
    Except String (List Yield × WalkState) :=
  processWalkEntries env w cd cr label (env.osWalk fl dir) [] st

/-- The `for sample_dir in sample_dirs` loop. -/
def processSampleDirs (env : Env) (w : Walker) (cd cr fl : Bool) (label : String) :
    List String → WalkState → Except String (List Yield × WalkState)
  | [], st => .ok ([], st)
  | d :: ds, st =>
    match processSampleDir env w cd cr fl label d st with
    | .error e => .error e
    | .ok (ys, st1) =>
      match processSampleDirs env w cd cr fl label ds st1 with
      | .error e => .error e
      | .ok (ys2, st2) => .ok (ys ++ ys2, st2)

/-- The `for wavpath in sample_files` loop: directly specified paths go
through the same `audiofile_ok` gate. -/
def processSampleFiles (env : Env) (w : Walker) (cd cr : Bool) (label : String) :
    List String → WalkState → List Yield × WalkState
  | [], st => ([], st)
  | p :: ps, st =>
    let r := audiofile_ok env w cd cr st p label
    let rest := processSampleFiles env w cd cr label ps r.2
    (if r.1 then (label, p, env.md5sum p) :: rest.1 else rest.1, rest.2)

/-- The body of the outer label loop for one label: first the directory
traversals, then the directly specified sample files. -/
def processLabel (env : Env) (w : Walker) (cd cr fl : Bool) (label : String)
    (st : WalkState) : Except String (List Yield × WalkState) :=
  match processSampleDirs env w cd cr fl label (w.getLabelDef label).sample_dirs st with
  | .error e => .error e
  | .ok (ys, st1) =>
    let r := processSampleFiles env w cd cr label (w.getLabelDef label).sample_files st1
    .ok (ys ++ r.1, r.2)

/-- The `for label in sorted(self.label_definitions.keys())` loop. -/
def processLabels (env : Env) (w : Walker) (cd cr fl : Bool) :
    List String → WalkState → Except String (List Yield × WalkState)
  | [], st => .ok ([], st)
  | label :: rest, st =>
    match processLabel env w cd cr fl label st with
    | .error e => .error e
    | .ok (ys, st1) =>
      match processLabels env w cd cr fl rest st1 with
      | .error e => .error e
      | .ok (ys2, st2) => .ok (ys ++ ys2, st2)

/-- `sorted(self.label_definitions.keys())`: Python `sorted` is a stable
ascending sort, modelled by insertion sort on the `≤` order of strings. -/
def sortedLabels (w : Walker) : List String :=
  List.insertionSort (· ≤ ·) (w.label_definitions.map Prod.fst)

/-- `walk` together with its final closure state. -/
def walkFull (env : Env) (w : Walker) (check_duplicates check_read followlinks : Bool) :
    Except String (List Yield × WalkState) :=
  processLabels env w check_duplicates check_read followlinks (sortedLabels w) {}

/-- `SpeechDatasetWalker.walk`: the sequence of `(label, filepath, md5sum)`
triples yielded by one full generator run, or the `DatasetRecursionError`
message when the traversal raises. -/
def walk (env : Env) (w : Walker) (check_duplicates check_read followlinks : Bool) :
    Except String (List Yield) :=
  (walkFull env w check_duplicates check_read followlinks).map Prod.fst

/-- Default value of the `check_duplicates` parameter of `walk`. -/
def walk_default_check_duplicates : Bool := false

/-- Default value of the `check_read` parameter of `walk`. -/
def walk_default_check_read : Bool := false

/-- Default value of the `followlinks` parameter of `walk`. -/
def walk_default_followlinks : Bool := true

/-- `__iter__`: `return self.walk()`, i.e. `walk` at the defaults of its
signature. -/
def walkerIter (env : Env) (w : Walker) : Except String (List Yield) :=
  walk env w walk_default_check_duplicates walk_default_check_read
    walk_default_followlinks

/-- `parse_directory_tree`: for every label definition, set its
`sample_dirs` to `join_root(*paths)` for each path tuple the class-level
`dataset_tree` assigns to the label. -/
def parse_directory_tree (w : Walker) (dataset_tree : List (String × List (List String))) :
    Walker :=
  { w with
    label_definitions := w.label_definitions.map fun ld =>
      (ld.1, { ld.2 with
        sample_dirs := ((dictGet dataset_tree ld.1).getD []).map fun paths =>
          paths.foldl pathJoin (w.dataset_root.getD "") }) }

/-- One `collections.Counter` over speaker ids: an association list from key
to count, in first-insertion order. -/
abbrev Counter := List (String × Nat)

/-- `counter[k] += 1`: bump the existing entry or append a fresh one with
count 1 (a missing Counter key reads as 0). -/
def counterIncr : Counter → String → Counter
  | [], k => [(k, 1)]
  | (k2, n) :: rest, k =>
    if k2 = k then (k2, n + 1) :: rest else (k2, n) :: counterIncr rest k

/-- `c[label][speaker_id] += 1` on the dict of Counters: update the entry of
`label` (present for every label of `label_definitions`). -/
def bumpLabelCounter : List (String × Counter) → String → String →
    List (String × Counter)
  | [], _, _ => []
  | (l2, ctr) :: rest, label, sid =>
    if l2 = label then (l2, counterIncr ctr sid) :: rest
    else (l2, ctr) :: bumpLabelCounter rest label sid

/-- `count_files_per_speaker_by_label`: initialise one empty Counter per
label of `label_definitions`, then for every `(label, path, _)` of
`iter(self)` count `parse_speaker_id(path)` under `label`.  The walk's
`DatasetRecursionError`, if any, propagates. -/
def count_files_per_speaker_by_label (env : Env) (w : Walker) :
    Except String (List (String × Counter)) :=
  (walkerIter env w).map fun triples =>
    triples.foldl (fun c t => bumpLabelCounter c t.1 (w.parse_speaker_id t.2.1))
      (w.label_definitions.map fun ld => (ld.1, []))

/-- `speakers_per_label`: the number of Counter keys per label, i.e. the
number of distinct speaker ids counted for the label. -/
def speakers_per_label (env : Env) (w : Walker) :
    Except String (List (String × Nat)) :=
  (count_files_per_speaker_by_label env w).map fun counts =>
    counts.map fun lc => (lc.1, lc.2.length)

/-- `speaker_ids_by_label`: the sorted list of Counter keys per label. -/
def speaker_ids_by_label (env : Env) (w : Walker) :
    Except String (List (String × List String)) :=
  (count_files_per_speaker_by_label env w).map fun counts =>
    counts.map fun lc =>
      (lc.1, List.insertionSort (· ≤ ·) (lc.2.map Prod.fst))

/-- Python truthiness of an optional-list argument: `None` and `[]` are
falsy, a non-empty list is truthy. -/
def truthyList (o : Option (List String)) : Bool :=
  match o with
  | none => false
  | some l => !l.isEmpty

/-- `SpeechDatasetWalker.__init__` argument validation: when `dataset_root`
is `None`, assert that `paths`, `labels` and `checksums` are all truthy;
otherwise assert that all three are `None`.  `.ok` means both asserts
passed and the instance is created; `.error` is the `AssertionError`
message. -/
def walker_init_check (dataset_root : Option String)
    (paths labels checksums : Option (List String)) : Except String Unit :=
  match dataset_root with
  | none =>
    if truthyList paths && truthyList labels && truthyList checksums then .ok ()
    else .error "If dataset_root is None, a SpeechDatasetWalker must get its paths, labels, and checksums predefined, otherwise there is no paths to walk over"
  | some _ =>
    if paths.isNone && labels.isNone && checksums.isNone then .ok ()
    else .error "If dataset_root is not None, then a SpeechDatasetWalker should not get its paths, labels, or checksums predefined, because they will be produced by walking over all directories starting at the dataset_root"

/-- The spec's reading of default iteration (claim C8): iterating a walker
is `walk()` with `check_duplicates=False`, `check_read=False`,
`followlinks=True`. -/
def iterSpec (env : Env) (w : Walker) : Except String (List Yield) :=
  walk env w false false true

/-- A triple could only have been yielded after `audiofile_ok` returned
`True` for its path and label in some walk state. -/
def passedChecks (env : Env) (w : Walker) (cd cr : Bool) (t : Yield) : Prop :=
  ∃ st st', audiofile_ok env w cd cr st t.2.1 t.1 = (true, st')

/-- The invariant maintained by `check_duplicates=True`: the checksums of
the triples yielded so far are pairwise distinct, and each of them has a
non-empty bucket in the `duplicates` dict. -/
def DupInv (st : WalkState) (ts : List Yield) : Prop :=
  (ts.map fun t => t.2.2).Nodup ∧ ∀ t ∈ ts, lookupDup st.duplicates t.2.2 ≠ []

/-- The speaker ids that `count_files_per_speaker_by_label` counts under a
label: `parse_speaker_id` of the path of every triple yielded with that
label, in yield order. -/
def speakerIdsFor (w : Walker) (label : String) (ts : List Yield) : List String :=
  ts.filterMap fun t =>
    if t.1 = label then some (w.parse_speaker_id t.2.1) else none

/-- A small concrete file system and dataset used to instantiate the
theorems: two wav files under the traversed directory `/d/a`, one directly
specified sample file, and a directory tree entry for the label `eng`.
`md5sum` is the path length, so `/d/a/x.wav` and `/d/a/y.wav` collide. -/
def envW : Env where
  pathExists := fun _ => true
  readWav := fun _ => some 8000
  md5sum := fun p => p.length
  osWalk := fun _ root =>
    if root = "/d/a" then [("/d/a", ["x.wav", "y.wav"])]
    else if root = "/d/wav/english" then [("/d/wav/english", ["e.wav"])]
    else []

/-- A concrete walker over `envW` with one label. -/
def wW : Walker where
  dataset_root := some "/d"
  label_definitions := [("eng", { sample_dirs := ["/d/a"], sample_files := ["/d/s.wav"] })]
  parse_speaker_id := fun p => p

/-- A concrete walker whose `sample_dirs` are filled by
`parse_directory_tree`. -/
def wT : Walker where
  dataset_root := some "/d"
  label_definitions := [("eng", { sample_files := ["/d/s.wav"] })]
  parse_speaker_id := fun p => p

/-- `envW` with an `os.walk` that produces the same directory twice, as a
symlink back to an ancestor would. -/
def envR : Env := { envW with
  osWalk := fun _ root =>
    if root = "/d/a" then [("/d/a", ["x.wav"]), ("/d/a", ["x.wav"])] else [] }

/-- `envW` with one unreadable audio file. -/
def envB : Env := { envW with
  readWav := fun p => if p = "/d/a/y.wav" then none else some 8000 }

/-- The triples of a default walk of `wW` over `envW`. -/
def tsW : List Yield :=
  [("eng", "/d/a/x.wav", 10), ("eng", "/d/a/y.wav", 10), ("eng", "/d/s.wav", 8)]

/-- A yielded triple's path originates either from the directory traversal
of one of its label's `sample_dirs` or from the label's directly specified
`sample_files`. -/
def yieldedFromLabelDef (env : Env) (w : Walker) (fl : Bool) (t : Yield) : Prop :=
  (∃ dir ∈ (w.getLabelDef t.1).sample_dirs,
    ∃ pe ∈ env.osWalk fl dir, ∃ f ∈ pe.2,
      t.2.1 = pathJoin (w.join_root pe.1) f) ∨
  t.2.1 ∈ (w.getLabelDef t.1).sample_files

theorem afterChecks_snd (w : Walker) (st : WalkState) (p l : String) :
    (afterChecks w st p l).2 = st := by
  unfold afterChecks
  split <;> [rfl; skip]
  split <;> rfl

theorem afterChecks_true (w : Walker) (st : WalkState) (p l : String)
    (h : (afterChecks w st p l).1 = true) :
    speaker_id_is_ignored w p l = false ∧ strEndsWith p "wav" = true := by
  unfold afterChecks at h
  by_cases hs : speaker_id_is_ignored w p l
  · simp [hs] at h
  · by_cases he : (file_extensions.any fun ext => strEndsWith p ext) = true
    · refine ⟨by simpa using hs, ?_⟩
      simpa [file_extensions] using he
    · simp [hs, he] at h

theorem audiofile_ok_true (env : Env) (w : Walker) (cd cr : Bool)
    (st : WalkState) (p l : String)
    (h : (audiofile_ok env w cd cr st p l).1 = true) :
    env.pathExists p = true ∧
    (cr = true → (env.readWav p).isSome = true) ∧
    speaker_id_is_ignored w p l = false ∧
    strEndsWith p "wav" = true := by
  unfold audiofile_ok at h
  by_cases hE : env.pathExists p = false
  · simp [hE] at h
  · have hE' : env.pathExists p = true := by simpa using hE
    by_cases hR : (cr && (env.readWav p).isNone) = true
    · rw [if_neg hE, if_pos hR] at h
      simp at h
    · have hRead : cr = true → (env.readWav p).isSome = true := by
        intro hcr
        cases hO : env.readWav p with
        | none => rw [hcr, hO] at hR; simp at hR
        | some v => simp
      by_cases hcd : cd = true
      · rw [if_neg hE, if_neg hR, if_pos hcd] at h
        by_cases hlen :
            (lookupDup (addDup st.duplicates (env.md5sum p) p) (env.md5sum p)).length > 1
        · simp [hlen] at h
        · rw [if_neg hlen] at h
          exact ⟨hE', hRead, afterChecks_true _ _ _ _ h⟩
      · rw [if_neg hE, if_neg hR, if_neg hcd] at h
        exact ⟨hE', hRead, afterChecks_true _ _ _ _ h⟩

theorem lookupDup_addDup_self (d : List (Nat × List String)) (h : Nat) (p : String) :
    lookupDup (addDup d h p) h = lookupDup d h ++ [p] := by
  induction d with
  | nil => simp [addDup, lookupDup]
  | cons e rest ih =>
    obtain ⟨h2, ps⟩ := e
    by_cases he : h2 = h
    · simp [addDup, lookupDup, he]
    · simp [addDup, lookupDup, he, ih]

theorem lookupDup_addDup_ne (d : List (Nat × List String)) (h h' : Nat) (p : String)
    (hne : h' ≠ h) : lookupDup (addDup d h p) h' = lookupDup d h' := by
  induction d with
  | nil =>
    simp only [addDup, lookupDup]
    rw [if_neg (fun hc => hne hc.symm)]
  | cons e rest ih =>
    obtain ⟨h2, ps⟩ := e
    by_cases he : h2 = h
    · have hne2 : ¬(h2 = h') := fun hc => hne (hc.symm.trans he)
      simp only [addDup, if_pos he, lookupDup]
      rw [if_neg hne2, if_neg hne2]
    · simp only [addDup, if_neg he, lookupDup]
      by_cases he' : h2 = h'
      · rw [if_pos he', if_pos he']
      · rw [if_neg he', if_neg he', ih]

/-- `audiofile_ok` never empties an already non-empty hash bucket. -/
theorem audiofile_ok_dup_mono (env : Env) (w : Walker) (cd cr : Bool)
    (st : WalkState) (p l : String) (h : Nat)
    (hne : lookupDup st.duplicates h ≠ []) :
    lookupDup (audiofile_ok env w cd cr st p l).2.duplicates h ≠ [] := by
  unfold audiofile_ok
  by_cases hE : env.pathExists p = false
  · simpa [hE] using hne
  · rw [if_neg hE]
    by_cases hR : (cr && (env.readWav p).isNone) = true
    · simpa [hR] using hne
    · rw [if_neg hR]
      by_cases hcd : cd = true
      · rw [if_pos hcd]
        simp only
        have hmono : lookupDup (addDup st.duplicates (env.md5sum p) p) h ≠ [] := by
          by_cases hh : h = env.md5sum p
          · subst hh
            simp [lookupDup_addDup_self]
          · rw [lookupDup_addDup_ne _ _ _ _ hh]
            exact hne
        split
        · exact hmono
        · rw [afterChecks_snd]
          exact hmono
      · rw [if_neg hcd, afterChecks_snd]
        exact hne

/-- With `check_duplicates=True`, `audiofile_ok` approves a file only when
its content hash was not seen before, and afterwards that hash is
recorded. -/
theorem audiofile_ok_true_dup_fresh (env : Env) (w : Walker) (cr : Bool)
    (st : WalkState) (p l : String)
    (h : (audiofile_ok env w true cr st p l).1 = true) :
    lookupDup st.duplicates (env.md5sum p) = [] ∧
    lookupDup (audiofile_ok env w true cr st p l).2.duplicates (env.md5sum p) ≠ [] := by
  unfold audiofile_ok at h ⊢
  by_cases hE : env.pathExists p = false
  · simp [hE] at h
  · rw [if_neg hE] at h ⊢
    by_cases hR : (cr && (env.readWav p).isNone) = true
    · simp [hR] at h
    · rw [if_neg hR, if_pos rfl] at h ⊢
      simp only at h ⊢
      by_cases hlen :
          (lookupDup (addDup st.duplicates (env.md5sum p) p) (env.md5sum p)).length > 1
      · simp [hlen] at h
      · rw [if_neg hlen] at h ⊢
        rw [lookupDup_addDup_self] at hlen
        have hempty : lookupDup st.duplicates (env.md5sum p) = [] := by
          cases hd : lookupDup st.duplicates (env.md5sum p) with
          | nil => rfl
          | cons a as => rw [hd] at hlen; simp at hlen
        refine ⟨hempty, ?_⟩
        rw [afterChecks_snd, lookupDup_addDup_self, hempty]
        simp

theorem processFiles_sound (env : Env) (w : Walker) (cd cr : Bool)
    (label parent : String) :
    ∀ (fs : List String) (st : WalkState),
      ∀ t ∈ (processFiles env w cd cr label parent fs st).1,
        t.1 = label ∧ (∃ f ∈ fs, t.2.1 = pathJoin (w.join_root parent) f) ∧
        t.2.2 = env.md5sum t.2.1 ∧ passedChecks env w cd cr t
  | [], st => by simp [processFiles]
  | f :: fs, st => by
    intro t ht
    simp only [processFiles] at ht
    set wavpath := pathJoin (w.join_root parent) f with hw
    by_cases hok : (audiofile_ok env w cd cr st wavpath label).1 = true
    · rw [if_pos hok] at ht
      rcases List.mem_cons.mp ht with h1 | h2
      · subst h1
        refine ⟨rfl, ⟨f, List.mem_cons_self _ _, rfl⟩, rfl, ?_⟩
        refine ⟨st, (audiofile_ok env w cd cr st wavpath label).2, ?_⟩
        exact Prod.ext hok rfl
      · obtain ⟨h1, ⟨f', hf', hp⟩, h3, h4⟩ :=
          processFiles_sound env w cd cr label parent fs
            (audiofile_ok env w cd cr st wavpath label).2 t h2
        exact ⟨h1, ⟨f', List.mem_cons_of_mem _ hf', hp⟩, h3, h4⟩
    · rw [if_neg hok] at ht
      obtain ⟨h1, ⟨f', hf', hp⟩, h3, h4⟩ :=
        processFiles_sound env w cd cr label parent fs
          (audiofile_ok env w cd cr st wavpath label).2 t ht
      exact ⟨h1, ⟨f', List.mem_cons_of_mem _ hf', hp⟩, h3, h4⟩

theorem processSampleFiles_sound (env : Env) (w : Walker) (cd cr : Bool)
    (label : String) :
    ∀ (ps : List String) (st : WalkState),
      ∀ t ∈ (processSampleFiles env w cd cr label ps st).1,
        t.1 = label ∧ t.2.1 ∈ ps ∧
        t.2.2 = env.md5sum t.2.1 ∧ passedChecks env w cd cr t
  | [], st => by simp [processSampleFiles]
  | p :: ps, st => by
    intro t ht
    simp only [processSampleFiles] at ht
    by_cases hok : (audiofile_ok env w cd cr st p label).1 = true
    · rw [if_pos hok] at ht
      rcases List.mem_cons.mp ht with h1 | h2
      · subst h1
        refine ⟨rfl, List.mem_cons_self _ _, rfl, ?_⟩
        exact ⟨st, (audiofile_ok env w cd cr st p label).2, Prod.ext hok rfl⟩
      · obtain ⟨h1, hp, h3, h4⟩ :=
          processSampleFiles_sound env w cd cr label ps
            (audiofile_ok env w cd cr st p label).2 t h2
        exact ⟨h1, List.mem_cons_of_mem _ hp, h3, h4⟩
    · rw [if_neg hok] at ht
      obtain ⟨h1, hp, h3, h4⟩ :=
        processSampleFiles_sound env w cd cr label ps
          (audiofile_ok env w cd cr st p label).2 t ht
      exact ⟨h1, List.mem_cons_of_mem _ hp, h3, h4⟩

theorem processWalkEntries_sound (env : Env) (w : Walker) (cd cr : Bool)
    (label : String) :
    ∀ (entries : List (String × List String)) (seen : List String)
      (st : WalkState) (ys : List Yield) (st2 : WalkState),
      processWalkEntries env w cd cr label entries seen st = .ok (ys, st2) →
      ∀ t ∈ ys, t.1 = label ∧
        (∃ pe ∈ entries, ∃ f ∈ pe.2, t.2.1 = pathJoin (w.join_root pe.1) f) ∧
        t.2.2 = env.md5sum t.2.1 ∧ passedChecks env w cd cr t
  | [], seen, st, ys, st2 => by
    intro h t ht
    simp only [processWalkEntries] at h
    cases h
    simp at ht
  | (parent, files) :: rest, seen, st, ys, st2 => by
    intro h t ht
    simp only [processWalkEntries] at h
    by_cases hseen : seen.contains (w.join_root parent) = true
    · rw [if_pos hseen] at h
      cases h
    · rw [if_neg hseen] at h
      cases hrec : processWalkEntries env w cd cr label rest
          (w.join_root parent :: seen)
          (processFiles env w cd cr label parent files st).2 with
      | error e => rw [hrec] at h; cases h
      | ok r =>
        obtain ⟨ys2, st3⟩ := r
        rw [hrec] at h
        dsimp only at h
        have hys : (processFiles env w cd cr label parent files st).1 ++ ys2 = ys :=
          congrArg Prod.fst (Except.ok.inj h)
        rw [← hys] at ht
        rcases List.mem_append.mp ht with h1 | h2
        · obtain ⟨h1, ⟨f', hf', hp⟩, h3, h4⟩ :=
            processFiles_sound env w cd cr label parent files st t h1
          exact ⟨h1, ⟨(parent, files), List.mem_cons_self _ _, f', hf', hp⟩, h3, h4⟩
        · obtain ⟨h1, ⟨pe, hpe, hf⟩, h3, h4⟩ :=
            processWalkEntries_sound env w cd cr label rest
              (w.join_root parent :: seen)
              (processFiles env w cd cr label parent files st).2 ys2 st3 hrec t h2
          exact ⟨h1, ⟨pe, List.mem_cons_of_mem _ hpe, hf⟩, h3, h4⟩

theorem processSampleDirs_sound (env : Env) (w : Walker) (cd cr fl : Bool)
    (label : String) :
    ∀ (dirs : List String) (st : WalkState) (ys : List Yield) (st2 : WalkState),
      processSampleDirs env w cd cr fl label dirs st = .ok (ys, st2) →
      ∀ t ∈ ys, t.1 = label ∧
        (∃ dir ∈ dirs, ∃ pe ∈ env.osWalk fl dir, ∃ f ∈ pe.2,
          t.2.1 = pathJoin (w.join_root pe.1) f) ∧
        t.2.2 = env.md5sum t.2.1 ∧ passedChecks env w cd cr t
  | [], st, ys, st2 => by
    intro h t ht
    simp only [processSampleDirs] at h
    cases h
    simp at ht
  | d :: ds, st, ys, st2 => by
    intro h t ht
    simp only [processSampleDirs] at h
    cases hd : processSampleDir env w cd cr fl label d st with
    | error e => rw [hd] at h; cases h
    | ok r =>
      obtain ⟨ys1, st1⟩ := r
      rw [hd] at h
      dsimp only at h
      cases hds : processSampleDirs env w cd cr fl label ds st1 with
      | error e => rw [hds] at h; cases h
      | ok r2 =>
        obtain ⟨ys2, st3⟩ := r2
        rw [hds] at h
        dsimp only at h
        have hys : ys1 ++ ys2 = ys := congrArg Prod.fst (Except.ok.inj h)
        rw [← hys] at ht
        rcases List.mem_append.mp ht with h1 | h2
        · obtain ⟨h1, ⟨pe, hpe, hf⟩, h3, h4⟩ :=
            processWalkEntries_sound env w cd cr label (env.osWalk fl d) [] st
              ys1 st1 hd t h1
          exact ⟨h1, ⟨d, List.mem_cons_self _ _, pe, hpe, hf⟩, h3, h4⟩
        · obtain ⟨h1, ⟨dir, hdir, hrest⟩, h3, h4⟩ :=
            processSampleDirs_sound env w cd cr fl label ds st1 ys2 st3 hds t h2
          exact ⟨h1, ⟨dir, List.mem_cons_of_mem _ hdir, hrest⟩, h3, h4⟩

theorem processLabel_sound (env : Env) (w : Walker) (cd cr fl : Bool)
    (label : String) (st : WalkState) (ys : List Yield) (st2 : WalkState)
    (h : processLabel env w cd cr fl label st = .ok (ys, st2)) :
    ∀ t ∈ ys, t.1 = label ∧ yieldedFromLabelDef env w fl t ∧
      t.2.2 = env.md5sum t.2.1 ∧ passedChecks env w cd cr t := by
  intro t ht
  simp only [processLabel] at h
  cases hd : processSampleDirs env w cd cr fl label
      (w.getLabelDef label).sample_dirs st with
  | error e => rw [hd] at h; cases h
  | ok r =>
    obtain ⟨ys1, st1⟩ := r
    rw [hd] at h
    dsimp only at h
    have hys : ys1 ++
        (processSampleFiles env w cd cr label (w.getLabelDef label).sample_files st1).1 =
        ys := congrArg Prod.fst (Except.ok.inj h)
    rw [← hys] at ht
    rcases List.mem_append.mp ht with h1 | h2
    · obtain ⟨h1, horig, h3, h4⟩ :=
        processSampleDirs_sound env w cd cr fl label
          (w.getLabelDef label).sample_dirs st ys1 st1 hd t h1
      exact ⟨h1, Or.inl (h1 ▸ horig), h3, h4⟩
    · obtain ⟨h1, hp, h3, h4⟩ :=
        processSampleFiles_sound env w cd cr label
          (w.getLabelDef label).sample_files st1 t h2
      exact ⟨h1, Or.inr (h1 ▸ hp), h3, h4⟩

theorem processLabels_sound (env : Env) (w : Walker) (cd cr fl : Bool) :
    ∀ (labels : List String) (st : WalkState) (ys : List Yield) (st2 : WalkState),
      processLabels env w cd cr fl labels st = .ok (ys, st2) →
      ∀ t ∈ ys, t.1 ∈ labels ∧ yieldedFromLabelDef env w fl t ∧
        t.2.2 = env.md5sum t.2.1 ∧ passedChecks env w cd cr t
  | [], st, ys, st2 => by
    intro h t ht
    simp only [processLabels] at h
    cases h
    simp at ht
  | label :: rest, st, ys, st2 => by
    intro h t ht
    simp only [processLabels] at h
    cases hl : processLabel env w cd cr fl label st with
    | error e => rw [hl] at h; cases h
    | ok r =>
      obtain ⟨ys1, st1⟩ := r
      rw [hl] at h
      dsimp only at h
      cases hrest : processLabels env w cd cr fl rest st1 with
      | error e => rw [hrest] at h; cases h
      | ok r2 =>
        obtain ⟨ys2, st3⟩ := r2
        rw [hrest] at h
        dsimp only at h
        have hys : ys1 ++ ys2 = ys := congrArg Prod.fst (Except.ok.inj h)
        rw [← hys] at ht
        rcases List.mem_append.mp ht with h1 | h2
        · obtain ⟨h1, horig, h3, h4⟩ :=
            processLabel_sound env w cd cr fl label st ys1 st1 hl t h1
          exact ⟨h1 ▸ List.mem_cons_self _ _, horig, h3, h4⟩
        · obtain ⟨h1, horig, h3, h4⟩ :=
            processLabels_sound env w cd cr fl rest st1 ys2 st3 hrest t h2
          exact ⟨List.mem_cons_of_mem _ h1, horig, h3, h4⟩

/-- Soundness of one full walk: every yielded triple carries a label of
`label_definitions`, a path originating from that label's definition, the
md5 checksum of that path, and a state in which `audiofile_ok` approved
it. -/
theorem walk_sound (env : Env) (w : Walker) (cd cr fl : Bool)
    (ts : List Yield) (h : walk env w cd cr fl = .ok ts) :
    ∀ t ∈ ts, t.1 ∈ w.label_definitions.map Prod.fst ∧
      yieldedFromLabelDef env w fl t ∧
      t.2.2 = env.md5sum t.2.1 ∧ passedChecks env w cd cr t := by
  intro t ht
  simp only [walk, walkFull] at h
  cases hfull : processLabels env w cd cr fl (sortedLabels w) {} with
  | error e => rw [hfull] at h; cases h
  | ok r =>
    obtain ⟨ys, st2⟩ := r
    rw [hfull] at h
    simp only [Except.map] at h
    have hys : ys = ts := Except.ok.inj h
    rw [← hys] at ht
    obtain ⟨h1, horig, h3, h4⟩ :=
      processLabels_sound env w cd cr fl (sortedLabels w) {} ys st2 hfull t ht
    refine ⟨?_, horig, h3, h4⟩
    refine (List.Perm.mem_iff
      (List.perm_insertionSort (· ≤ ·) (w.label_definitions.map Prod.fst))).mp ?_
    simpa [sortedLabels] using h1

theorem processWalkEntries_error_of_dup (env : Env) (w : Walker) (cd cr : Bool)
    (label : String) :
    ∀ (entries : List (String × List String)) (seen : List String) (st : WalkState),
      ((∃ p ∈ entries.map Prod.fst, w.join_root p ∈ seen) ∨
        ¬ (entries.map fun e => w.join_root e.1).Nodup) →
      ∃ msg, processWalkEntries env w cd cr label entries seen st = .error msg
  | [], seen, st => by
    intro h
    rcases h with ⟨p, hp, _⟩ | hnd
    · simp at hp
    · simp at hnd
  | (parent, files) :: rest, seen, st => by
    intro h
    simp only [processWalkEntries]
    by_cases hseen : seen.contains (w.join_root parent) = true
    · rw [if_pos hseen]
      exact ⟨_, rfl⟩
    · rw [if_neg hseen]
      have hseen' : w.join_root parent ∉ seen := by simpa using hseen
      have hrec : ∃ msg, processWalkEntries env w cd cr label rest
          (w.join_root parent :: seen)
          (processFiles env w cd cr label parent files st).2 = .error msg := by
        apply processWalkEntries_error_of_dup
        rcases h with ⟨p, hp, hmem⟩ | hnd
        · rw [List.map_cons] at hp
          rcases List.mem_cons.mp hp with h1 | h1
          · subst h1
            exact absurd hmem hseen'
          · exact Or.inl ⟨p, h1, List.mem_cons_of_mem _ hmem⟩
        · simp only [List.map_cons, List.nodup_cons] at hnd
          rcases not_and_or.mp hnd with h1 | h1
          · have h1' : w.join_root parent ∈ rest.map fun e => w.join_root e.1 := by
              simpa using h1
            obtain ⟨e, he, heq⟩ := List.mem_map.mp h1'
            exact Or.inl ⟨e.1, List.mem_map_of_mem _ he, heq ▸ List.mem_cons_self _ _⟩
          · exact Or.inr h1
      obtain ⟨msg, hmsg⟩ := hrec
      rw [hmsg]
      exact ⟨msg, rfl⟩

theorem processWalkEntries_ok_nodup (env : Env) (w : Walker) (cd cr : Bool)
    (label : String) :
    ∀ (entries : List (String × List String)) (seen : List String) (st : WalkState)
      (r : List Yield × WalkState),
      processWalkEntries env w cd cr label entries seen st = .ok r →
      (entries.map fun e => w.join_root e.1).Nodup ∧
      ∀ p ∈ entries.map fun e => w.join_root e.1, p ∉ seen
  | [], seen, st, r => by
    intro h
    simp
  | (parent, files) :: rest, seen, st, r => by
    intro h
    simp only [processWalkEntries] at h
    by_cases hseen : seen.contains (w.join_root parent) = true
    · rw [if_pos hseen] at h
      cases h
    · rw [if_neg hseen] at h
      have hseen' : w.join_root parent ∉ seen := by simpa using hseen
      cases hrec : processWalkEntries env w cd cr label rest
          (w.join_root parent :: seen)
          (processFiles env w cd cr label parent files st).2 with
      | error e => rw [hrec] at h; cases h
      | ok r2 =>
        obtain ⟨ih1, ih2⟩ := processWalkEntries_ok_nodup env w cd cr label rest
          (w.join_root parent :: seen)
          (processFiles env w cd cr label parent files st).2 r2 hrec
        constructor
        · simp only [List.map_cons, List.nodup_cons]
          refine ⟨fun hc => ?_, ih1⟩
          exact (ih2 _ hc) (List.mem_cons_self _ _)
        · intro p hp
          rw [List.map_cons] at hp
          rcases List.mem_cons.mp hp with h1 | h1
          · exact h1 ▸ hseen'
          · exact fun hc => (ih2 p h1) (List.mem_cons_of_mem _ hc)

theorem DupInv_step_false (env : Env) (w : Walker) (cr : Bool) (st : WalkState)
    (p label : String) (ts : List Yield) (hinv : DupInv st ts) :
    DupInv (audiofile_ok env w true cr st p label).2 ts :=
  ⟨hinv.1, fun t ht =>
    audiofile_ok_dup_mono env w true cr st p label t.2.2 (hinv.2 t ht)⟩

theorem DupInv_step_true (env : Env) (w : Walker) (cr : Bool) (st : WalkState)
    (p label : String) (ts : List Yield) (hinv : DupInv st ts)
    (hok : (audiofile_ok env w true cr st p label).1 = true) :
    DupInv (audiofile_ok env w true cr st p label).2
      (ts ++ [(label, p, env.md5sum p)]) := by
  obtain ⟨hfresh, hafter⟩ := audiofile_ok_true_dup_fresh env w cr st p label hok
  constructor
  · rw [List.map_append]
    rw [List.nodup_append_comm]
    simp only [List.map_cons, List.map_nil, List.singleton_append, List.nodup_cons]
    refine ⟨fun hc => ?_, hinv.1⟩
    obtain ⟨t', ht', heq⟩ := List.mem_map.mp hc
    exact (hinv.2 t' ht') (heq ▸ hfresh)
  · intro t ht
    rcases List.mem_append.mp ht with h1 | h1
    · exact audiofile_ok_dup_mono env w true cr st p label t.2.2 (hinv.2 t h1)
    · rcases List.mem_singleton.mp h1 with rfl
      exact hafter

theorem processFiles_dupInv (env : Env) (w : Walker) (cr : Bool)
    (label parent : String) :
    ∀ (fs : List String) (st : WalkState) (ts : List Yield), DupInv st ts →
      DupInv (processFiles env w true cr label parent fs st).2
        (ts ++ (processFiles env w true cr label parent fs st).1)
  | [], st, ts => by
    intro hinv
    simpa [processFiles] using hinv
  | f :: fs, st, ts => by
    intro hinv
    simp only [processFiles]
    set wavpath := pathJoin (w.join_root parent) f with hw
    by_cases hok : (audiofile_ok env w true cr st wavpath label).1 = true
    · rw [if_pos hok]
      rw [List.append_cons]
      exact processFiles_dupInv env w cr label parent fs
        (audiofile_ok env w true cr st wavpath label).2
        (ts ++ [(label, wavpath, env.md5sum wavpath)])
        (DupInv_step_true env w cr st wavpath label ts hinv hok)
    · rw [if_neg hok]
      exact processFiles_dupInv env w cr label parent fs
        (audiofile_ok env w true cr st wavpath label).2 ts
        (DupInv_step_false env w cr st wavpath label ts hinv)

theorem processSampleFiles_dupInv (env : Env) (w : Walker) (cr : Bool)
    (label : String) :
    ∀ (ps : List String) (st : WalkState) (ts : List Yield), DupInv st ts →
      DupInv (processSampleFiles env w true cr label ps st).2
        (ts ++ (processSampleFiles env w true cr label ps st).1)
  | [], st, ts => by
    intro hinv
    simpa [processSampleFiles] using hinv
  | p :: ps, st, ts => by
    intro hinv
    simp only [processSampleFiles]
    by_cases hok : (audiofile_ok env w true cr st p label).1 = true
    · rw [if_pos hok]
      rw [List.append_cons]
      exact processSampleFiles_dupInv env w cr label ps
        (audiofile_ok env w true cr st p label).2
        (ts ++ [(label, p, env.md5sum p)])
        (DupInv_step_true env w cr st p label ts hinv hok)
    · rw [if_neg hok]
      exact processSampleFiles_dupInv env w cr label ps
        (audiofile_ok env w true cr st p label).2 ts
        (DupInv_step_false env w cr st p label ts hinv)

theorem processWalkEntries_dupInv (env : Env) (w : Walker) (cr : Bool)
    (label : String) :
    ∀ (entries : List (String × List String)) (seen : List String)
      (st : WalkState) (ys : List Yield) (st2 : WalkState),
      processWalkEntries env w true cr label entries seen st = .ok (ys, st2) →
      ∀ ts, DupInv st ts → DupInv st2 (ts ++ ys)
  | [], seen, st, ys, st2 => by
    intro h ts hinv
    simp only [processWalkEntries] at h
    obtain ⟨h1, h2⟩ := Prod.mk.injEq .. ▸ Except.ok.inj h
    subst h1; subst h2
    simpa using hinv
  | (parent, files) :: rest, seen, st, ys, st2 => by
    intro h ts hinv
    simp only [processWalkEntries] at h
    by_cases hseen : seen.contains (w.join_root parent) = true
    · rw [if_pos hseen] at h
      cases h
    · rw [if_neg hseen] at h
      cases hrec : processWalkEntries env w true cr label rest
          (w.join_root parent :: seen)
          (processFiles env w true cr label parent files st).2 with
      | error e => rw [hrec] at h; cases h
      | ok r2 =>
        obtain ⟨ys2, st3⟩ := r2
        rw [hrec] at h
        dsimp only at h
        have hys : (processFiles env w true cr label parent files st).1 ++ ys2 = ys :=
          congrArg Prod.fst (Except.ok.inj h)
        have hst : st3 = st2 := congrArg Prod.snd (Except.ok.inj h)
        have h1 := processFiles_dupInv env w cr label parent files st ts hinv
        have h2 := processWalkEntries_dupInv env w cr label rest
          (w.join_root parent :: seen)
          (processFiles env w true cr label parent files st).2 ys2 st3 hrec
          (ts ++ (processFiles env w true cr label parent files st).1) h1
        rw [← hys, ← hst]
        simpa [List.append_assoc] using h2

theorem processSampleDirs_dupInv (env : Env) (w : Walker) (cr fl : Bool)
    (label : String) :
    ∀ (dirs : List String) (st : WalkState) (ys : List Yield) (st2 : WalkState),
      processSampleDirs env w true cr fl label dirs st = .ok (ys, st2) →
      ∀ ts, DupInv st ts → DupInv st2 (ts ++ ys)
  | [], st, ys, st2 => by
    intro h ts hinv
    simp only [processSampleDirs] at h
    obtain ⟨h1, h2⟩ := Prod.mk.injEq .. ▸ Except.ok.inj h
    subst h1; subst h2
    simpa using hinv
  | d :: ds, st, ys, st2 => by
    intro h ts hinv
    simp only [processSampleDirs] at h
    cases hd : processSampleDir env w true cr fl label d st with
    | error e => rw [hd] at h; cases h
    | ok r =>
      obtain ⟨ys1, st1⟩ := r
      rw [hd] at h
      dsimp only at h
      cases hds : processSampleDirs env w true cr fl label ds st1 with
      | error e => rw [hds] at h; cases h
      | ok r2 =>
        obtain ⟨ys2, st3⟩ := r2
        rw [hds] at h
        dsimp only at h
        have hys : ys1 ++ ys2 = ys := congrArg Prod.fst (Except.ok.inj h)
        have hst : st3 = st2 := congrArg Prod.snd (Except.ok.inj h)
        have h1 := processWalkEntries_dupInv env w cr label (env.osWalk fl d) [] st
          ys1 st1 hd ts hinv
        have h2 := processSampleDirs_dupInv env w cr fl label ds st1 ys2 st3 hds
          (ts ++ ys1) h1
        rw [← hys, ← hst]
        simpa [List.append_assoc] using h2

theorem processLabel_dupInv (env : Env) (w : Walker) (cr fl : Bool)
    (label : String) (st : WalkState) (ys : List Yield) (st2 : WalkState)
    (h : processLabel env w true cr fl label st = .ok (ys, st2)) :
    ∀ ts, DupInv st ts → DupInv st2 (ts ++ ys) := by
  intro ts hinv
  simp only [processLabel] at h
  cases hd : processSampleDirs env w true cr fl label
      (w.getLabelDef label).sample_dirs st with
  | error e => rw [hd] at h; cases h
  | ok r =>
    obtain ⟨ys1, st1⟩ := r
    rw [hd] at h
    dsimp only at h
    have hys : ys1 ++
        (processSampleFiles env w true cr label (w.getLabelDef label).sample_files st1).1 =
        ys := congrArg Prod.fst (Except.ok.inj h)
    have hst :
        (processSampleFiles env w true cr label (w.getLabelDef label).sample_files st1).2 =
        st2 := congrArg Prod.snd (Except.ok.inj h)
    have h1 := processSampleDirs_dupInv env w cr fl label
      (w.getLabelDef label).sample_dirs st ys1 st1 hd ts hinv
    have h2 := processSampleFiles_dupInv env w cr label
      (w.getLabelDef label).sample_files st1 (ts ++ ys1) h1
    rw [← hys, ← hst]
    simpa [List.append_assoc] using h2

theorem processLabels_dupInv (env : Env) (w : Walker) (cr fl : Bool) :
    ∀ (labels : List String) (st : WalkState) (ys : List Yield) (st2 : WalkState),
      processLabels env w true cr fl labels st = .ok (ys, st2) →
      ∀ ts, DupInv st ts → DupInv st2 (ts ++ ys)
  | [], st, ys, st2 => by
    intro h ts hinv
    simp only [processLabels] at h
    obtain ⟨h1, h2⟩ := Prod.mk.injEq .. ▸ Except.ok.inj h
    subst h1; subst h2
    simpa using hinv
  | label :: rest, st, ys, st2 => by
    intro h ts hinv
    simp only [processLabels] at h
    cases hl : processLabel env w true cr fl label st with
    | error e => rw [hl] at h; cases h
    | ok r =>
      obtain ⟨ys1, st1⟩ := r
      rw [hl] at h
      dsimp only at h
      cases hrest : processLabels env w true cr fl rest st1 with
      | error e => rw [hrest] at h; cases h
      | ok r2 =>
        obtain ⟨ys2, st3⟩ := r2
        rw [hrest] at h
        dsimp only at h
        have hys : ys1 ++ ys2 = ys := congrArg Prod.fst (Except.ok.inj h)
        have hst : st3 = st2 := congrArg Prod.snd (Except.ok.inj h)
        have h1 := processLabel_dupInv env w cr fl label st ys1 st1 hl ts hinv
        have h2 := processLabels_dupInv env w cr fl rest st1 ys2 st3 hrest
          (ts ++ ys1) h1
        rw [← hys, ← hst]
        simpa [List.append_assoc] using h2

theorem dictGet_mapValues {α β : Type _} (g : String → α → β) :
    ∀ (l : List (String × α)) (k : String),
      dictGet (l.map fun kv => (kv.1, g kv.1 kv.2)) k = (dictGet l k).map (g k)
  | [], k => rfl
  | (k2, v) :: rest, k => by
    by_cases he : k2 = k
    · subst he
      simp [dictGet]
    · simp only [List.map_cons, dictGet, if_neg he]
      exact dictGet_mapValues g rest k

theorem dictGet_isSome_of_mem {α : Type _} :
    ∀ (l : List (String × α)) (k : String), k ∈ l.map Prod.fst →
      (dictGet l k).isSome = true
  | [], k => by simp
  | (k2, v) :: rest, k => by
    intro hk
    by_cases he : k2 = k
    · simp [dictGet, he]
    · simp only [dictGet, if_neg he]
      rw [List.map_cons] at hk
      rcases List.mem_cons.mp hk with h1 | h1
      · exact absurd h1.symm he
      · exact dictGet_isSome_of_mem rest k h1

theorem dictGet_bumpLabelCounter :
    ∀ (c : List (String × Counter)) (label sid k : String),
      dictGet (bumpLabelCounter c label sid) k =
        if k = label then (dictGet c k).map (counterIncr · sid) else dictGet c k
  | [], label, sid, k => by
    simp [bumpLabelCounter, dictGet]
  | (l2, ctr) :: rest, label, sid, k => by
    by_cases h1 : l2 = label
    · subst h1
      by_cases h2 : l2 = k
      · subst h2
        simp [bumpLabelCounter, dictGet]
      · simp only [bumpLabelCounter, if_pos rfl, dictGet, if_neg h2]
        by_cases h3 : k = l2
        · exact absurd h3.symm h2
        · rw [if_neg h3]
    · simp only [bumpLabelCounter, if_neg h1, dictGet]
      by_cases h2 : l2 = k
      · subst h2
        rw [if_pos rfl, if_pos rfl]
        rw [if_neg (fun hc : l2 = label => h1 hc)]
      · rw [if_neg h2, if_neg h2, dictGet_bumpLabelCounter rest label sid k]

/-- Folding the per-triple counting step distributes, per label, into a
fold of `counterIncr` over the speaker ids of that label's triples. -/
theorem dictGet_countFold (w : Walker) :
    ∀ (ts : List Yield) (c : List (String × Counter)) (label : String),
      dictGet (ts.foldl (fun c t => bumpLabelCounter c t.1 (w.parse_speaker_id t.2.1)) c)
          label =
        (dictGet c label).map fun ctr => (speakerIdsFor w label ts).foldl counterIncr ctr
  | [], c, label => by
    simp only [speakerIdsFor, List.filterMap_nil, List.foldl_nil]
    cases dictGet c label <;> rfl
  | t :: ts, c, label => by
    rw [List.foldl_cons, dictGet_countFold w ts]
    rw [dictGet_bumpLabelCounter]
    by_cases h1 : label = t.1
    · rw [if_pos h1]
      have hids : speakerIdsFor w label (t :: ts) =
          w.parse_speaker_id t.2.1 :: speakerIdsFor w label ts := by
        simp [speakerIdsFor, List.filterMap_cons, h1.symm]
      rw [hids]
      cases dictGet c label <;> simp
    · rw [if_neg h1]
      have hne : ¬(t.1 = label) := fun hc => h1 hc.symm
      have hids : speakerIdsFor w label (t :: ts) = speakerIdsFor w label ts := by
        simp only [speakerIdsFor, List.filterMap_cons, if_neg hne]
      rw [hids]

theorem counterIncr_keys (ctr : Counter) (k : String) :
    (counterIncr ctr k).map Prod.fst =
      if k ∈ ctr.map Prod.fst then ctr.map Prod.fst else ctr.map Prod.fst ++ [k] := by
  induction ctr with
  | nil => simp [counterIncr]
  | cons e rest ih =>
    obtain ⟨k2, n⟩ := e
    by_cases he : k2 = k
    · subst he
      simp [counterIncr]
    · simp only [counterIncr, if_neg he, List.map_cons, ih]
      by_cases hm : k ∈ rest.map Prod.fst
      · rw [if_pos hm, if_pos (List.mem_cons_of_mem _ hm)]
      · rw [if_neg hm]
        rw [if_neg (fun hc => ?_)]
        · simp
        · rcases List.mem_cons.mp hc with h1 | h1
          · exact he h1.symm
          · exact hm h1

/-- Iterated `counterIncr` keeps the Counter's keys duplicate-free and its
key set is the initial keys joined with the incremented ids. -/
theorem countFoldKeys :
    ∀ (ids : List String) (ctr : Counter), (ctr.map Prod.fst).Nodup →
      ((ids.foldl counterIncr ctr).map Prod.fst).Nodup ∧
      ∀ k, k ∈ (ids.foldl counterIncr ctr).map Prod.fst ↔
        (k ∈ ctr.map Prod.fst ∨ k ∈ ids)
  | [], ctr => by
    intro hnd
    simpa using hnd
  | k0 :: ids, ctr => by
    intro hnd
    rw [List.foldl_cons]
    by_cases hm : k0 ∈ ctr.map Prod.fst
    · have hkeys : (counterIncr ctr k0).map Prod.fst = ctr.map Prod.fst := by
        rw [counterIncr_keys, if_pos hm]
      obtain ⟨ih1, ih2⟩ := countFoldKeys ids (counterIncr ctr k0) (hkeys ▸ hnd)
      refine ⟨ih1, fun k => ?_⟩
      rw [ih2, hkeys]
      constructor
      · rintro (h | h)
        · exact Or.inl h
        · exact Or.inr (List.mem_cons_of_mem _ h)
      · rintro (h | h)
        · exact Or.inl h
        · rcases List.mem_cons.mp h with h1 | h1
          · exact Or.inl (h1 ▸ hm)
          · exact Or.inr h1
    · have hkeys : (counterIncr ctr k0).map Prod.fst = ctr.map Prod.fst ++ [k0] := by
        rw [counterIncr_keys, if_neg hm]
      have hnd2 : ((counterIncr ctr k0).map Prod.fst).Nodup := by
        rw [hkeys, List.nodup_append_comm, List.singleton_append]
        exact List.nodup_cons.mpr ⟨hm, hnd⟩
      obtain ⟨ih1, ih2⟩ := countFoldKeys ids (counterIncr ctr k0) hnd2
      refine ⟨ih1, fun k => ?_⟩
      rw [ih2, hkeys]
      constructor
      · rintro (h | h)
        · rcases List.mem_append.mp h with h1 | h1
          · exact Or.inl h1
          · exact Or.inr (List.mem_cons.mpr (Or.inl (List.mem_singleton.mp h1)))
        · exact Or.inr (List.mem_cons_of_mem _ h)
      · rintro (h | h)
        · exact Or.inl (List.mem_append.mpr (Or.inl h))
        · rcases List.mem_cons.mp h with h1 | h1
          · exact Or.inl (List.mem_append.mpr (Or.inr (h1 ▸ List.mem_singleton_self _)))
          · exact Or.inr h1

theorem audiofile_ok_readWav_irrel (env : Env) (r : String → Option Nat)
    (w : Walker) (cd : Bool) (st : WalkState) (p l : String) :
    audiofile_ok { env with readWav := r } w cd false st p l =
      audiofile_ok env w cd false st p l := by
  simp [audiofile_ok]

theorem processFiles_readWav_irrel (env : Env) (r : String → Option Nat)
    (w : Walker) (cd : Bool) (label parent : String) :
    ∀ (fs : List String) (st : WalkState),
      processFiles { env with readWav := r } w cd false label parent fs st =
        processFiles env w cd false label parent fs st
  | [], st => rfl
  | f :: fs, st => by
    simp only [processFiles, audiofile_ok_readWav_irrel,
      processFiles_readWav_irrel env r w cd label parent fs]

theorem processSampleFiles_readWav_irrel (env : Env) (r : String → Option Nat)
    (w : Walker) (cd : Bool) (label : String) :
    ∀ (ps : List String) (st : WalkState),
      processSampleFiles { env with readWav := r } w cd false label ps st =
        processSampleFiles env w cd false label ps st
  | [], st => rfl
  | p :: ps, st => by
    simp only [processSampleFiles, audiofile_ok_readWav_irrel,
      processSampleFiles_readWav_irrel env r w cd label ps]

theorem processWalkEntries_readWav_irrel (env : Env) (r : String → Option Nat)
    (w : Walker) (cd : Bool) (label : String) :
    ∀ (entries : List (String × List String)) (seen : List String) (st : WalkState),
      processWalkEntries { env with readWav := r } w cd false label entries seen st =
        processWalkEntries env w cd false label entries seen st
  | [], seen, st => rfl
  | (parent, files) :: rest, seen, st => by
    simp only [processWalkEntries, processFiles_readWav_irrel,
      processWalkEntries_readWav_irrel env r w cd label rest]

theorem processSampleDirs_readWav_irrel (env : Env) (r : String → Option Nat)
    (w : Walker) (cd fl : Bool) (label : String) :
    ∀ (dirs : List String) (st : WalkState),
      processSampleDirs { env with readWav := r } w cd false fl label dirs st =
        processSampleDirs env w cd false fl label dirs st
  | [], st => rfl
  | d :: ds, st => by
    simp only [processSampleDirs, processSampleDir, processWalkEntries_readWav_irrel,
      processSampleDirs_readWav_irrel env r w cd fl label ds]

theorem processLabel_readWav_irrel (env : Env) (r : String → Option Nat)
    (w : Walker) (cd fl : Bool) (label : String) (st : WalkState) :
    processLabel { env with readWav := r } w cd false fl label st =
      processLabel env w cd false fl label st := by
  simp only [processLabel, processSampleDirs_readWav_irrel,
    processSampleFiles_readWav_irrel]

theorem processLabels_readWav_irrel (env : Env) (r : String → Option Nat)
    (w : Walker) (cd fl : Bool) :
    ∀ (labels : List String) (st : WalkState),
      processLabels { env with readWav := r } w cd false fl labels st =
        processLabels env w cd false fl labels st
  | [], st => rfl
  | label :: rest, st => by
    simp only [processLabels, processLabel_readWav_irrel,
      processLabels_readWav_irrel env r w cd fl rest]

/-- With `check_read=False`, one whole walk is insensitive to what
`read_wavfile` would return: no file content is read for validation. -/
theorem walk_readWav_irrel (env : Env) (r : String → Option Nat)
    (w : Walker) (cd fl : Bool) :
    walk { env with readWav := r } w cd false fl = walk env w cd false fl := by
  simp only [walk, walkFull, processLabels_readWav_irrel, sortedLabels]

theorem map_fst_mapValues {α β : Type _} (g : (String × α) → β) (l : List (String × α)) :
    (l.map fun kv => (kv.1, g kv)).map Prod.fst = l.map Prod.fst := by
  induction l with
  | nil => rfl
  | cons e rest ih => simp only [List.map_cons, ih]

theorem dictGet_pdt (w : Walker) (tree : List (String × List (List String))) :
    ∀ (l : List (String × LabelDef)) (k : String),
      dictGet (l.map fun ld =>
        (ld.1, { ld.2 with
          sample_dirs := ((dictGet tree ld.1).getD []).map
            fun (paths : List String) =>
              paths.foldl pathJoin (w.dataset_root.getD "") })) k =
      (dictGet l k).map fun d => { d with
        sample_dirs := ((dictGet tree k).getD []).map
          fun (paths : List String) =>
            paths.foldl pathJoin (w.dataset_root.getD "") }
  | [], k => rfl
  | (k2, v) :: rest, k => by
    by_cases he : k2 = k
    · subst he
      simp [dictGet]
    · simp only [List.map_cons, dictGet, if_neg he]
      exact dictGet_pdt w tree rest k

theorem getLabelDef_pdt_sample_files (w : Walker)
    (tree : List (String × List (List String))) (label : String) :
    ((parse_directory_tree w tree).getLabelDef label).sample_files =
      (w.getLabelDef label).sample_files := by
  simp only [parse_directory_tree, Walker.getLabelDef]
  rw [dictGet_pdt]
  cases dictGet w.label_definitions label <;> rfl

theorem getLabelDef_pdt_sample_dirs (w : Walker)
    (tree : List (String × List (List String))) (label : String)
    (hmem : label ∈ w.label_definitions.map Prod.fst) :
    ((parse_directory_tree w tree).getLabelDef label).sample_dirs =
      ((dictGet tree label).getD []).map fun paths =>
        paths.foldl pathJoin (w.dataset_root.getD "") := by
  simp only [parse_directory_tree, Walker.getLabelDef]
  rw [dictGet_pdt]
  have hs := dictGet_isSome_of_mem w.label_definitions label hmem
  cases hd : dictGet w.label_definitions label with
  | none => rw [hd] at hs; cases hs
  | some d => rfl

/-- C1: with `followlinks=True` (or any flag), if `os.walk` over a sample
directory produces a directory twice in one traversal, the walk raises
`DatasetRecursionError` (first conjunct); and whenever the traversal of one
sample directory completes without the error, no directory was produced
twice in it (second conjunct), so the walk cannot loop through symbolic
links. -/
theorem C1_walk_raises_on_repeated_directory (env : Env) (w : Walker)
    (cd cr fl : Bool) (label dir : String) (st : WalkState) :
    (¬ ((env.osWalk fl dir).map Prod.fst).Nodup →
      ∃ msg, processSampleDir env w cd cr fl label dir st = .error msg) ∧
    (∀ r, processSampleDir env w cd cr fl label dir st = .ok r →
      ((env.osWalk fl dir).map Prod.fst).Nodup) := by
  constructor
  · intro hdup
    apply processWalkEntries_error_of_dup
    right
    intro hc
    apply hdup
    have hmm : (env.osWalk fl dir).map (fun e => w.join_root e.1) =
        ((env.osWalk fl dir).map Prod.fst).map w.join_root := by
      rw [List.map_map]
      rfl
    rw [hmm] at hc
    exact hc.of_map w.join_root
  · intro r hok
    have h1 := (processWalkEntries_ok_nodup env w cd cr label
      (env.osWalk fl dir) [] st r hok).1
    have hmm : (env.osWalk fl dir).map (fun e => w.join_root e.1) =
        ((env.osWalk fl dir).map Prod.fst).map w.join_root := by
      rw [List.map_map]
      rfl
    rw [hmm] at h1
    exact h1.of_map w.join_root

/-- C2: with `check_duplicates=True`, the checksums of all triples yielded
over one whole walk are pairwise distinct: for every content hash at most
one file is yielded. -/
theorem C2_duplicate_hashes_never_yielded_twice (env : Env) (w : Walker)
    (cr fl : Bool) (ts : List Yield) (h : walk env w true cr fl = .ok ts) :
    (ts.map fun t => t.2.2).Nodup := by
  simp only [walk, walkFull] at h
  cases hfull : processLabels env w true cr fl (sortedLabels w) {} with
  | error e => rw [hfull] at h; cases h
  | ok r =>
    obtain ⟨ys, st2⟩ := r
    rw [hfull] at h
    simp only [Except.map] at h
    have hys : ys = ts := Except.ok.inj h
    have hinv := processLabels_dupInv env w cr fl (sortedLabels w) {} ys st2 hfull []
      ⟨by simp, by simp⟩
    rw [← hys]
    simpa using hinv.1

/-- C6: every triple yielded by `walk` has as third component the md5sum of
the file at the yielded path, under every combination of flags. -/
theorem C6_yielded_checksum_is_md5_of_path (env : Env) (w : Walker)
    (cd cr fl : Bool) (ts : List Yield) (h : walk env w cd cr fl = .ok ts) :
    ∀ t ∈ ts, t.2.2 = env.md5sum t.2.1 :=
  fun t ht => (walk_sound env w cd cr fl ts h t ht).2.2.1

/-- C9: every path yielded by `walk`, whether found by directory traversal
or among the directly specified sample files, ends with the extension
`wav`. -/
theorem C9_yielded_paths_end_with_wav (env : Env) (w : Walker)
    (cd cr fl : Bool) (ts : List Yield) (h : walk env w cd cr fl = .ok ts) :
    ∀ t ∈ ts, strEndsWith t.2.1 "wav" = true := by
  intro t ht
  obtain ⟨_, _, _, hpassed⟩ := walk_sound env w cd cr fl ts h t ht
  obtain ⟨st, st', hok⟩ := hpassed
  exact (audiofile_ok_true _ _ _ _ _ _ _ (by rw [hok])).2.2.2

theorem dictGet_initCounters :
    ∀ (l : List (String × LabelDef)) (k : String),
      dictGet (l.map fun ld => (ld.1, ([] : Counter))) k =
        (dictGet l k).map fun _ => ([] : Counter)
  | [], k => rfl
  | (k2, v) :: rest, k => by
    by_cases he : k2 = k
    · subst he
      simp [dictGet]
    · simp only [List.map_cons, dictGet, if_neg he]
      exact dictGet_initCounters rest k

theorem dictGet_mapLength :
    ∀ (l : List (String × Counter)) (k : String),
      dictGet (l.map fun lc => (lc.1, lc.2.length)) k =
        (dictGet l k).map List.length
  | [], k => rfl
  | (k2, v) :: rest, k => by
    by_cases he : k2 = k
    · subst he
      simp [dictGet]
    · simp only [List.map_cons, dictGet, if_neg he]
      exact dictGet_mapLength rest k

theorem dictGet_mapSort :
    ∀ (l : List (String × Counter)) (k : String),
      dictGet (l.map fun lc =>
          (lc.1, List.insertionSort (· ≤ ·) (lc.2.map Prod.fst))) k =
        (dictGet l k).map fun ctr => List.insertionSort (· ≤ ·) (ctr.map Prod.fst)
  | [], k => rfl
  | (k2, v) :: rest, k => by
    by_cases he : k2 = k
    · subst he
      simp [dictGet]
    · simp only [List.map_cons, dictGet, if_neg he]
      exact dictGet_mapSort rest k

/-- C3: speaker filtering is set-based.  After `set_speaker_filter(d)`,
every yielded file whose label is a key of `d` has its parsed speaker id in
the set built from `d[label]`; labels that are not keys of `d` are never
filtered on speaker grounds; and a walker whose filter dict is still the
initial empty dict filters no file by speaker. -/
theorem C3_speaker_filter_is_set_based (env : Env) (w : Walker)
    (d : List (String × List String)) (cd cr fl : Bool) :
    (∀ ts, walk env (set_speaker_filter w d) cd cr fl = .ok ts →
      ∀ t ∈ ts, ∀ ids, dictGet d t.1 = some ids →
        w.parse_speaker_id t.2.1 ∈ ids) ∧
    (∀ path label, dictGet d label = none →
      speaker_id_is_ignored (set_speaker_filter w d) path label = false) ∧
    (∀ path label,
      speaker_id_is_ignored { w with ignored_speaker_ids_by_label := [] } path label
        = false) := by
  refine ⟨?_, ?_, ?_⟩
  · intro ts h t ht ids hids
    obtain ⟨_, _, _, hpassed⟩ :=
      walk_sound env (set_speaker_filter w d) cd cr fl ts h t ht
    obtain ⟨st, st', hok⟩ := hpassed
    have h4 := (audiofile_ok_true _ _ _ _ _ _ _ (by rw [hok])).2.2.1
    simp only [speaker_id_is_ignored, set_speaker_filter] at h4
    rw [hids] at h4
    simpa using h4
  · intro path label hnone
    simp [speaker_id_is_ignored, set_speaker_filter, hnone]
  · intro path label
    simp [speaker_id_is_ignored, dictGet]

/-- C4: with `check_read=True`, a file can only be yielded when the audio
read succeeded (first conjunct), and an existing file whose read returns a
`None` wav is rejected and recorded in `invalid_files` (second conjunct);
with `check_read=False` the walk never consults `read_wavfile` at all
(third conjunct). -/
theorem C4_check_read_validates_content (env : Env) (w : Walker) (cd fl : Bool) :
    (∀ ts, walk env w cd true fl = .ok ts →
      ∀ t ∈ ts, (env.readWav t.2.1).isSome = true) ∧
    (∀ st p l, env.pathExists p = true → env.readWav p = none →
      audiofile_ok env w cd true st p l =
        (false, { st with invalid_files := st.invalid_files ++ [p] })) ∧
    (∀ r, walk { env with readWav := r } w cd false fl = walk env w cd false fl) := by
  refine ⟨?_, ?_, ?_⟩
  · intro ts h t ht
    obtain ⟨_, _, _, hpassed⟩ := walk_sound env w cd true fl ts h t ht
    obtain ⟨st, st', hok⟩ := hpassed
    exact (audiofile_ok_true _ _ _ _ _ _ _ (by rw [hok])).2.1 rfl
  · intro st p l hE hR
    simp [audiofile_ok, hE, hR]
  · intro r
    exact walk_readWav_irrel env r w cd fl

/-- C5: for a walker whose `sample_dirs` were produced by
`parse_directory_tree` from its corpus-specific `dataset_tree`, every
yielded triple's path was found either by traversing one of the
directories the tree assigns to the triple's label (joined onto the
dataset root), or among that label's directly specified sample files. -/
theorem C5_paths_come_from_label_tree (env : Env) (w : Walker)
    (tree : List (String × List (List String))) (cd cr fl : Bool)
    (ts : List Yield)
    (h : walk env (parse_directory_tree w tree) cd cr fl = .ok ts) :
    ∀ t ∈ ts, t.1 ∈ w.label_definitions.map Prod.fst ∧
      ((∃ dirParts ∈ (dictGet tree t.1).getD [],
        ∃ pe ∈ env.osWalk fl (dirParts.foldl pathJoin (w.dataset_root.getD "")),
          ∃ f ∈ pe.2, t.2.1 = pathJoin (w.join_root pe.1) f) ∨
        t.2.1 ∈ (w.getLabelDef t.1).sample_files) := by
  intro t ht
  obtain ⟨hmem, horig, _, _⟩ :=
    walk_sound env (parse_directory_tree w tree) cd cr fl ts h t ht
  rw [show (parse_directory_tree w tree).label_definitions.map Prod.fst =
      w.label_definitions.map Prod.fst from map_fst_mapValues _ _] at hmem
  refine ⟨hmem, ?_⟩
  rcases horig with ⟨dir, hdir, rest⟩ | hfiles
  · left
    rw [getLabelDef_pdt_sample_dirs w tree t.1 hmem] at hdir
    obtain ⟨dirParts, hdp, hfold⟩ := List.mem_map.mp hdir
    exact ⟨dirParts, hdp, hfold ▸ rest⟩
  · right
    rw [getLabelDef_pdt_sample_files] at hfiles
    exact hfiles

/-- C7: for every label of the walker, `speakers_per_label` reports the
number of distinct speaker ids parsed from the paths that a default
iteration yields for that label, and `speaker_ids_by_label` reports the
sorted duplicate-free list of exactly those ids. -/
theorem C7_speaker_statistics (env : Env) (w : Walker) (ts : List Yield)
    (h : walkerIter env w = .ok ts) (label : String)
    (hl : label ∈ w.label_definitions.map Prod.fst) :
    ∃ spl sibl, speakers_per_label env w = .ok spl ∧
      speaker_ids_by_label env w = .ok sibl ∧
      dictGet spl label = some (speakerIdsFor w label ts).toFinset.card ∧
      ∃ sids, dictGet sibl label = some sids ∧
        sids.Sorted (· ≤ ·) ∧ sids.Nodup ∧
        ∀ k, k ∈ sids ↔ k ∈ speakerIdsFor w label ts := by
  have hcount : count_files_per_speaker_by_label env w = .ok
      (ts.foldl (fun c t => bumpLabelCounter c t.1 (w.parse_speaker_id t.2.1))
        (w.label_definitions.map fun ld => (ld.1, []))) := by
    simp [count_files_per_speaker_by_label, h, Except.map]
  have hinit : dictGet (w.label_definitions.map fun ld => (ld.1, ([] : Counter)))
      label = some [] := by
    have := dictGet_isSome_of_mem w.label_definitions label hl
    cases hd : dictGet w.label_definitions label with
    | none => rw [hd] at this; cases this
    | some d =>
      rw [dictGet_initCounters, hd]
      rfl
  have hctr : dictGet
      (ts.foldl (fun c t => bumpLabelCounter c t.1 (w.parse_speaker_id t.2.1))
        (w.label_definitions.map fun ld => (ld.1, []))) label =
      some ((speakerIdsFor w label ts).foldl counterIncr []) := by
    rw [dictGet_countFold, hinit]
    rfl
  obtain ⟨hknd, hkmem⟩ := countFoldKeys (speakerIdsFor w label ts) [] List.nodup_nil
  set ctr := (speakerIdsFor w label ts).foldl counterIncr [] with hctrdef
  have hkmem' : ∀ k, k ∈ ctr.map Prod.fst ↔ k ∈ speakerIdsFor w label ts := by
    intro k
    rw [hkmem k]
    simp
  refine ⟨(ts.foldl (fun c t => bumpLabelCounter c t.1 (w.parse_speaker_id t.2.1))
      (w.label_definitions.map fun ld => (ld.1, []))).map fun lc => (lc.1, lc.2.length),
    (ts.foldl (fun c t => bumpLabelCounter c t.1 (w.parse_speaker_id t.2.1))
      (w.label_definitions.map fun ld => (ld.1, []))).map fun lc =>
        (lc.1, List.insertionSort (· ≤ ·) (lc.2.map Prod.fst)), ?_, ?_, ?_, ?_⟩
  · simp [speakers_per_label, hcount, Except.map]
  · simp [speaker_ids_by_label, hcount, Except.map]
  · rw [dictGet_mapLength, hctr]
    have hcard : (speakerIdsFor w label ts).toFinset.card =
        (ctr.map Prod.fst).length := by
      have hfs : (ctr.map Prod.fst).toFinset = (speakerIdsFor w label ts).toFinset := by
        apply Finset.ext
        intro a
        simp only [List.mem_toFinset]
        exact hkmem' a
      rw [← hfs, List.toFinset_card_of_nodup hknd]
    rw [hcard]
    simp
  · refine ⟨List.insertionSort (· ≤ ·) (ctr.map Prod.fst), ?_, ?_, ?_, ?_⟩
    · rw [dictGet_mapSort, hctr]
      rfl
    · exact List.sorted_insertionSort _ _
    · exact (List.perm_insertionSort (· ≤ ·) (ctr.map Prod.fst)).nodup_iff.mpr hknd
    · intro k
      rw [(List.perm_insertionSort (· ≤ ·) (ctr.map Prod.fst)).mem_iff]
      exact hkmem' k

/-- C8: iterating a walker is exactly `walk()` at the defaults of its
signature, `check_duplicates=False`, `check_read=False`,
`followlinks=True` — and therefore performs no audio-content validation:
the iteration does not depend on what `read_wavfile` would return. -/
theorem C8_iteration_is_default_walk (env : Env) (w : Walker) :
    walkerIter env w = iterSpec env w ∧
    walk_default_check_duplicates = false ∧
    walk_default_check_read = false ∧
    walk_default_followlinks = true ∧
    ∀ r, walkerIter { env with readWav := r } w = walkerIter env w :=
  ⟨rfl, rfl, rfl, rfl, fun r => walk_readWav_irrel env r w false true⟩

theorem truthyList_iff (o : Option (List String)) :
    truthyList o = true ↔ ∃ l, o = some l ∧ l ≠ [] := by
  cases o with
  | none => simp [truthyList]
  | some l => cases l <;> simp [truthyList]

/-- C10: the constructor's argument validation accepts exactly the two
intended configurations: no `dataset_root` with all of `paths`, `labels`,
`checksums` given and non-empty, or a `dataset_root` with all three left
`None`; every other combination fails an assertion. -/
theorem C10_init_requires_one_source (root : Option String)
    (paths labels checksums : Option (List String)) :
    walker_init_check root paths labels checksums = .ok () ↔
      ((root = none ∧
        (∃ l, paths = some l ∧ l ≠ []) ∧
        (∃ l, labels = some l ∧ l ≠ []) ∧
        (∃ l, checksums = some l ∧ l ≠ [])) ∨
       (root ≠ none ∧ paths = none ∧ labels = none ∧ checksums = none)) := by
  cases root with
  | none =>
    simp only [walker_init_check]
    by_cases hc : (truthyList paths && truthyList labels && truthyList checksums) = true
    · rw [if_pos hc]
      simp only [Bool.and_eq_true] at hc
      obtain ⟨⟨h1, h2⟩, h3⟩ := hc
      constructor
      · intro _
        exact Or.inl ⟨by trivial, truthyList_iff _ |>.mp h1, truthyList_iff _ |>.mp h2,
          truthyList_iff _ |>.mp h3⟩
      · intro _
        rfl
    · rw [if_neg hc]
      constructor
      · intro hcontra
        cases hcontra
      · rintro (⟨_, hp, hlb, hcs⟩ | ⟨hr, _⟩)
        · exact absurd (by
            simp only [Bool.and_eq_true]
            exact ⟨⟨(truthyList_iff _).mpr hp, (truthyList_iff _).mpr hlb⟩,
              (truthyList_iff _).mpr hcs⟩) hc
        · exact absurd (by trivial) hr
  | some r =>
    simp only [walker_init_check]
    by_cases hc : (paths.isNone && labels.isNone && checksums.isNone) = true
    · rw [if_pos hc]
      simp only [Bool.and_eq_true, Option.isNone_iff_eq_none] at hc
      obtain ⟨⟨h1, h2⟩, h3⟩ := hc
      constructor
      · intro _
        refine Or.inr ⟨?_, h1, h2, h3⟩
        simp
      · intro _
        rfl
    · rw [if_neg hc]
      constructor
      · intro hcontra
        cases hcontra
      · rintro (⟨hr, _⟩ | ⟨_, hp, hlb, hcs⟩)
        · cases hr
        · exact absurd (by
            simp only [Bool.and_eq_true, Option.isNone_iff_eq_none]
            exact ⟨⟨hp, hlb⟩, hcs⟩) hc

/-- Witness for C1: over `envR`, whose `os.walk` lists `/d/a` twice, the
sample-directory traversal raises `DatasetRecursionError`. -/
theorem C1_witness :
    ∃ msg, processSampleDir envR wW false false true "eng" "/d/a" {} = .error msg :=
  (C1_walk_raises_on_repeated_directory envR wW false false true "eng" "/d/a" {}).1
    (by decide)

/-- Witness for C2: the checksums yielded by a `check_duplicates=True` walk
of `wW` over `envW` (where two files share the hash 10) are pairwise
distinct. -/
theorem C2_witness :
    (([("eng", "/d/a/x.wav", 10), ("eng", "/d/s.wav", 8)] : List Yield).map
      fun t => t.2.2).Nodup :=
  C2_duplicate_hashes_never_yielded_twice envW wW false true
    [("eng", "/d/a/x.wav", 10), ("eng", "/d/s.wav", 8)] rfl

/-- Witness for C3: a file yielded under a speaker filter has its parsed
speaker id in the filter's id set for its label. -/
theorem C3_witness :
    wW.parse_speaker_id "/d/a/x.wav" ∈ ["/d/a/x.wav", "/d/a/y.wav"] :=
  (C3_speaker_filter_is_set_based envW wW [("eng", ["/d/a/x.wav", "/d/a/y.wav"])]
    false false true).1
    [("eng", "/d/a/x.wav", 10), ("eng", "/d/a/y.wav", 10)] rfl
    ("eng", "/d/a/x.wav", 10) (by decide) ["/d/a/x.wav", "/d/a/y.wav"] rfl

/-- Witness for C4: over `envB`, the unreadable `/d/a/y.wav` is rejected by
`audiofile_ok` with `check_read=True` and recorded in `invalid_files`. -/
theorem C4_witness :
    audiofile_ok envB wW false true {} "/d/a/y.wav" "eng" =
      (false, { invalid_files := ["/d/a/y.wav"] }) :=
  (C4_check_read_validates_content envB wW false true).2.1 {} "/d/a/y.wav" "eng" rfl rfl

/-- Witness for C5: the triple yielded from the tree-derived directory of
`wT` originates from that directory according to the dataset tree. -/
theorem C5_witness :
    ("eng" : String) ∈ wT.label_definitions.map Prod.fst ∧
    ((∃ dirParts ∈ (dictGet [("eng", [["wav", "english"]])] "eng").getD [],
      ∃ pe ∈ envW.osWalk true (dirParts.foldl pathJoin (wT.dataset_root.getD "")),
        ∃ f ∈ pe.2, "/d/wav/english/e.wav" = pathJoin (wT.join_root pe.1) f) ∨
      ("/d/wav/english/e.wav" : String) ∈ (wT.getLabelDef "eng").sample_files) :=
  C5_paths_come_from_label_tree envW wT [("eng", [["wav", "english"]])] false false true
    [("eng", "/d/wav/english/e.wav", 20), ("eng", "/d/s.wav", 8)] rfl
    ("eng", "/d/wav/english/e.wav", 20) (by decide)

/-- Witness for C6: the checksum yielded for `/d/a/x.wav` is its md5sum. -/
theorem C6_witness : (10 : Nat) = envW.md5sum "/d/a/x.wav" :=
  C6_yielded_checksum_is_md5_of_path envW wW false false true tsW rfl
    ("eng", "/d/a/x.wav", 10) (by decide)

/-- Witness for C7: the speaker statistics of `wW` over `envW` at the label
`eng`. -/
theorem C7_witness :
    ∃ spl sibl, speakers_per_label envW wW = .ok spl ∧
      speaker_ids_by_label envW wW = .ok sibl ∧
      dictGet spl "eng" = some (speakerIdsFor wW "eng" tsW).toFinset.card ∧
      ∃ sids, dictGet sibl "eng" = some sids ∧
        sids.Sorted (· ≤ ·) ∧ sids.Nodup ∧
        ∀ k, k ∈ sids ↔ k ∈ speakerIdsFor wW "eng" tsW :=
  C7_speaker_statistics envW wW tsW rfl "eng" (by decide)

/-- Witness for C9: a yielded path ends with `wav`. -/
theorem C9_witness : strEndsWith "/d/a/x.wav" "wav" = true :=
  C9_yielded_paths_end_with_wav envW wW false false true tsW rfl
    ("eng", "/d/a/x.wav", 10) (by decide)

end Speechbox
